import Mathlib

/-!
Shallow embedding of src/wordcount.c.

Characters and bytes are modelled as `Nat` (the value getc returns, 0..255).
C strings (the word buffers) are modelled as `List Nat`, the bytes before the
NUL terminator.  The `words` array of `wc_Context` together with its `len`
field is modelled as a `List` of entries: `words[0..len)` in order.  The
pthread mutex serializes every `wc_new_word_callback` and every
`wc_print_words`, so a concurrent execution is modelled by the sequence of
table operations in the order the lock admitted them (an interleaving of the
per-thread sequences).
-/

namespace WordCount

/-- Bytes of an ASCII string literal, for readable concrete inputs. -/
def str (s : String) : List Nat := s.toList.map Char.toNat

/-- Model of C `isalpha((unsigned char) c)` in the C locale: letters A-Z (65..90)
and a-z (97..122). -/
def wc_isalpha (b : Nat) : Bool := decide ((65 ≤ b ∧ b ≤ 90) ∨ (97 ≤ b ∧ b ≤ 122))

/-- Model of C `tolower((unsigned char) c)`: maps A-Z to a-z, everything else unchanged. -/
def wc_tolower (b : Nat) : Nat := if 65 ≤ b ∧ b ≤ 90 then b + 32 else b

/-- Model of `wc_Word` (wordcount.c lines 34-37): one frequency-table entry,
a word (the bytes of the `char word[128]` C string) and its count `freq`. -/
structure wc_Word where
  word : List Nat
  freq : Nat
deriving DecidableEq

/-- Model of C `strcmp` on NUL-terminated strings: 0 when equal, the difference
of the first differing character pair otherwise (a missing character is the
NUL terminator, value 0). -/
def strcmp : List Nat → List Nat → Int
  | [], [] => 0
  | [], b :: _ => 0 - (b : Int)
  | a :: _, [] => (a : Int) - 0
  | a :: as, b :: bs => if a = b then strcmp as bs else (a : Int) - (b : Int)

/-- Model of `wc_compare_words` (wordcount.c lines 51-58): equal frequencies
compare by `strcmp` of the words, otherwise by `b->freq - a->freq`
(descending frequency). -/
def wc_compare_words (a b : wc_Word) : Int :=
  if a.freq = b.freq then strcmp a.word b.word else (b.freq : Int) - (a.freq : Int)

/-- Insertion step of the sort model. -/
def wc_insert (e : wc_Word) : List wc_Word → List wc_Word
  | [] => [e]
  | x :: xs => if wc_compare_words e x ≤ 0 then e :: x :: xs else x :: wc_insert e xs

/-- Model of the `qsort(ctxt->words, ctxt->len, sizeof(wc_Word), wc_compare_words)`
call (wordcount.c line 103): a sorting function for the comparator
`wc_compare_words`.  `qsort` guarantees exactly that its output is a
permutation of its input that is sorted with respect to the comparator, which
is what is proved about this model below. -/
def wc_qsort : List wc_Word → List wc_Word
  | [] => []
  | x :: xs => wc_insert x (wc_qsort xs)

/-- Model of the lookup loop of `wc_store_word` (wordcount.c lines 78-84):
`found` is overwritten at every match, so the loop yields the index of the
last entry whose word equals `buf`, or none. -/
def wc_find_last (ws : List wc_Word) (buf : List Nat) : Option Nat :=
  match ws with
  | [] => none
  | w :: rest =>
    match wc_find_last rest buf with
    | some j => some (j + 1)
    | none => if w.word = buf then some 0 else none

/-- Model of `ctxt->words[found].freq++` (wordcount.c line 92): increment the
count of the entry at index `found`. -/
def wc_incr : List wc_Word → Nat → List wc_Word
  | [], _ => []
  | w :: ws, 0 => ⟨w.word, w.freq + 1⟩ :: ws
  | w :: ws, j + 1 => w :: wc_incr ws j

/-- Model of `wc_store_word` (wordcount.c lines 77-94): look the word up; if
absent, append a new entry with count 1 at index `len` and bump `len`
(the code has no capacity check against the 128-entry array); if present,
increment the found entry's count. -/
def wc_store_word (ws : List wc_Word) (buf : List Nat) : List wc_Word :=
  match wc_find_last ws buf with
  | none => ws ++ [⟨buf, 1⟩]
  | some j => wc_incr ws j

/-- Model of `wc_new_word_callback` (wordcount.c lines 96-109): under the
mutex, store the word and re-sort the whole table with `qsort`. -/
def wc_new_word_callback (buf : List Nat) (ws : List wc_Word) : List wc_Word :=
  wc_qsort (wc_store_word ws buf)

/-- Table contents after running a sequence of recorded words through
`wc_new_word_callback`, starting from table `ws`. -/
def wc_run_from (ws : List wc_Word) : List (List Nat) → List wc_Word
  | [] => ws
  | w :: l => wc_run_from (wc_new_word_callback w ws) l

/-- Table contents after running a sequence of recorded words from the empty
table (`ctxt.len = 0`, wordcount.c line 171). -/
def wc_run (l : List (List Nat)) : List wc_Word := wc_run_from [] l

/-- Total count the table stores for word `w`: the sum of `freq` over the
entries whose word is `w` (when words are unique this is the single entry's
count, or 0 if absent). -/
def wc_tableCount (ws : List wc_Word) (w : List Nat) : Nat :=
  ((ws.filter (fun e => decide (e.word = w))).map wc_Word.freq).sum

/-- Model of the read loop of `wc_read_fd` (wordcount.c lines 111-137),
returning the list of words passed to the callback, in order.  The `int`
result of `getc` is stored into a plain `char`, so byte 255 (0xFF) becomes
the value -1 and the `!= EOF` test stops the loop, exactly as at real
end-of-stream; in both cases the loop exits without flushing a pending word.
`state` is true for WC_IN_WORD, and `buf` holds the bytes written so far
(`buf[0..i)`). -/
def wc_read_loop : List Nat → Bool → List Nat → List (List Nat)
  | [], _, _ => []
  | c :: rest, state, buf =>
    if c = 255 then []
    else if wc_isalpha c then wc_read_loop rest true (buf ++ [wc_tolower c])
    else (if state then [buf] else []) ++ wc_read_loop rest false []

/-- Words emitted by `wc_read_fd` on a whole input stream
(initial state WC_OUT_OF_WORD, `i = 0`). -/
def wc_read_words (input : List Nat) : List (List Nat) := wc_read_loop input false []

/-- Indices of `buf` written by the read loop of `wc_read_fd`, in order:
an alphabetic byte writes `buf[i]` and increments `i`; a non-alphabetic byte
writes the terminator `buf[i]` when the state is WC_IN_WORD and resets `i` to
0; byte 255 ends the loop as end-of-stream does.  The C array is
`char buf[128]`, so any index here that is 128 or more is an out-of-bounds
write. -/
def wc_write_indices : List Nat → Bool → Nat → List Nat
  | [], _, _ => []
  | c :: rest, state, i =>
    if c = 255 then []
    else if wc_isalpha c then i :: wc_write_indices rest true (i + 1)
    else (if state then [i] else []) ++ wc_write_indices rest false 0

/-- Thread-slot indices `main` uses (wordcount.c lines 165-189) when invoked
with `argc` arguments: slot 0 for the stdin reader, then slot `i` for each
`argv[i]`, `i = 1..argc-1`, with no check of `argc` anywhere.  The arrays
`pthread_t t[10]` and `wc_Thread_Context tctxt[10]` have 10 slots, so any
index here that is 10 or more is an out-of-bounds access. -/
def wc_main_slots (argc : Nat) : List Nat := List.range argc

/-- Decimal digits (as ASCII bytes) of a natural number, the bytes `printf`
emits for `%d` on a non-negative value. -/
def natDigits (n : Nat) : List Nat :=
  if n < 10 then [48 + n]
  else natDigits (n / 10) ++ [48 + n % 10]
decreasing_by exact Nat.div_lt_self (by omega) (by omega)

/-- Bytes of `printf ("\nCurrent word frequency count: \n")` (wordcount.c line 66). -/
def wc_header_bytes : List Nat := str "\nCurrent word frequency count: \n"

/-- Bytes of `printf("%s - %d \n", word, freq)` for one entry (wordcount.c line 68). -/
def wc_entry_bytes (e : wc_Word) : List Nat :=
  e.word ++ str " - " ++ natDigits e.freq ++ str " \n"

/-- Bytes of `printf ("----------------------------- \n")` (wordcount.c line 70):
29 dashes, a space, a newline. -/
def wc_sep_bytes : List Nat := str "----------------------------- \n"

/-- Byte stream `wc_print_words` (wordcount.c lines 60-75) appends to stdout
for a table: header, one entry line per table entry in table order, separator. -/
def wc_print_output (ws : List wc_Word) : List Nat :=
  wc_header_bytes ++ (ws.map wc_entry_bytes).flatten ++ wc_sep_bytes

/-- Lines of a byte stream: maximal newline-free chunks, each terminated by a
newline byte (10); a final unterminated chunk is also a line. -/
def splitLines : List Nat → List (List Nat)
  | [] => []
  | b :: rest =>
    if b = 10 then [] :: splitLines rest
    else
      match splitLines rest with
      | [] => [[b]]
      | l :: ls => (b :: l) :: ls

/-- Report of `wc_print_words` as a list of output lines. -/
def wc_print_lines (ws : List wc_Word) : List (List Nat) :=
  splitLines (wc_print_output ws)

/-- Word whose bytes are lower-case letters, the only form the tokenizer ever
hands to the table (it lower-cases every alphabetic byte). -/
def wc_alpha_word (w : List Nat) : Prop := ∀ b ∈ w, 97 ≤ b ∧ b ≤ 122

instance (w : List Nat) : Decidable (wc_alpha_word w) := by
  unfold wc_alpha_word; infer_instance

/-- Ascending lexicographic order on words, the tie-break order the spec
names: strictly smaller in the lexicographic extension of byte order, or
equal. -/
def wc_lex_le (a b : List Nat) : Prop := List.Lex (fun x y : Nat => x < y) a b ∨ a = b

/-- Order the spec requires of every snapshot: descending count, ties broken
by ascending lexicographic order of the word. -/
def wc_spec_ord (a b : wc_Word) : Prop :=
  b.freq < a.freq ∨ (a.freq = b.freq ∧ wc_lex_le a.word b.word)

/-- Capacity envelope of the C data structures: at most 128 distinct words
(the `wc_Word words[128]` array) and every word at most 127 bytes (the
`char word[128]` buffers, 127 bytes plus the NUL terminator).  Outside this
envelope the C code overflows its fixed arrays; those out-of-bounds behaviors
are analyzed separately below. -/
def wc_within_capacity (l : List (List Nat)) : Prop :=
  l.dedup.length ≤ 128 ∧ ∀ w ∈ l, w.length ≤ 127

instance (l : List (List Nat)) : Decidable (wc_within_capacity l) := by
  unfold wc_within_capacity; infer_instance

/-- Alphabetic words of every entry of a table. -/
def wc_words_ok (ws : List wc_Word) : Prop :=
  ∀ w ∈ ws.map wc_Word.word, wc_alpha_word w

example : wc_read_words (str "Hello, World! foo-bar\n") =
    [str "hello", str "world", str "foo", str "bar"] := by decide

example : wc_run [str "b", str "a", str "b"] = [⟨str "b", 2⟩, ⟨str "a", 1⟩] := by decide

lemma strcmp_neg (a : List Nat) : ∀ b, strcmp a b = - strcmp b a := by
  induction a with
  | nil => intro b; cases b <;> simp [strcmp]
  | cons x xs ih =>
    intro b
    cases b with
    | nil => simp [strcmp]
    | cons y ys =>
      by_cases h : x = y
      · subst h; simp [strcmp, ih]
      · rw [strcmp, strcmp, if_neg h, if_neg (fun hyx => h hyx.symm)]; omega

lemma strcmp_nil_le (b : List Nat) : strcmp [] b ≤ 0 := by
  cases b <;> simp [strcmp]

lemma strcmp_le_trans {a b c : List Nat} (ha : ∀ x ∈ a, 0 < x) (hb : ∀ x ∈ b, 0 < x)
    (hab : strcmp a b ≤ 0) (hbc : strcmp b c ≤ 0) : strcmp a c ≤ 0 := by
  induction a generalizing b c with
  | nil => exact strcmp_nil_le c
  | cons x xs ih =>
    cases b with
    | nil =>
      exfalso
      have hx : 0 < x := ha x (by simp)
      rw [strcmp] at hab; omega
    | cons y ys =>
      cases c with
      | nil =>
        exfalso
        have hy : 0 < y := hb y (by simp)
        rw [strcmp] at hbc; omega
      | cons z zs =>
        have ha2 : ∀ u ∈ xs, 0 < u := fun u hu => ha u (by simp [hu])
        have hb2 : ∀ u ∈ ys, 0 < u := fun u hu => hb u (by simp [hu])
        by_cases hxy : x = y
        · subst hxy
          rw [strcmp, if_pos rfl] at hab
          by_cases hyz : x = z
          · subst hyz
            rw [strcmp, if_pos rfl] at hbc ⊢
            exact ih ha2 hb2 hab hbc
          · rw [strcmp, if_neg hyz] at hbc ⊢; omega
        · rw [strcmp, if_neg hxy] at hab
          by_cases hyz : y = z
          · subst hyz
            rw [strcmp, if_neg hxy]; omega
          · rw [strcmp, if_neg hyz] at hbc
            have hxz : x ≠ z := by omega
            rw [strcmp, if_neg hxz]; omega

lemma alpha_word_pos {w : List Nat} (h : wc_alpha_word w) : ∀ x ∈ w, 0 < x :=
  fun x hx => by have := h x hx; omega

lemma wc_compare_total (a b : wc_Word) :
    wc_compare_words a b ≤ 0 ∨ wc_compare_words b a ≤ 0 := by
  unfold wc_compare_words
  by_cases h : a.freq = b.freq
  · rw [if_pos h, if_pos h.symm, strcmp_neg]; omega
  · rw [if_neg h, if_neg (fun hba => h hba.symm)]; omega

lemma wc_compare_trans {a b c : wc_Word} (ha : wc_alpha_word a.word)
    (hb : wc_alpha_word b.word) (hab : wc_compare_words a b ≤ 0)
    (hbc : wc_compare_words b c ≤ 0) : wc_compare_words a c ≤ 0 := by
  unfold wc_compare_words at *
  by_cases h1 : a.freq = b.freq
  · rw [if_pos h1] at hab
    by_cases h2 : b.freq = c.freq
    · rw [if_pos h2] at hbc
      rw [if_pos (h1.trans h2)]
      exact strcmp_le_trans (alpha_word_pos ha) (alpha_word_pos hb) hab hbc
    · rw [if_neg h2] at hbc
      rw [if_neg (fun hac => h2 (h1.symm.trans hac))]; omega
  · rw [if_neg h1] at hab
    by_cases h2 : b.freq = c.freq
    · rw [if_neg (fun hac => h1 (hac.trans h2.symm))]; omega
    · rw [if_neg h2] at hbc
      have hac : a.freq ≠ c.freq := by omega
      rw [if_neg hac]; omega

lemma wc_insert_perm (e : wc_Word) (l : List wc_Word) :
    (wc_insert e l).Perm (e :: l) := by
  induction l with
  | nil => simp [wc_insert]
  | cons x xs ih =>
    rw [wc_insert]
    by_cases h : wc_compare_words e x ≤ 0
    · rw [if_pos h]
    · rw [if_neg h]
      exact (ih.cons x).trans (List.Perm.swap e x xs)

lemma wc_qsort_perm (l : List wc_Word) : (wc_qsort l).Perm l := by
  induction l with
  | nil => simp [wc_qsort]
  | cons x xs ih => exact (wc_insert_perm x (wc_qsort xs)).trans (ih.cons x)

lemma wc_insert_mem {y e : wc_Word} {l : List wc_Word} (h : y ∈ wc_insert e l) :
    y = e ∨ y ∈ l := by
  have := (wc_insert_perm e l).mem_iff.mp h
  simpa using this

lemma wc_insert_sorted {e : wc_Word} {l : List wc_Word} (he : wc_alpha_word e.word)
    (hl : ∀ x ∈ l, wc_alpha_word x.word)
    (h : l.Pairwise (fun a b => wc_compare_words a b ≤ 0)) :
    (wc_insert e l).Pairwise (fun a b => wc_compare_words a b ≤ 0) := by
  induction l with
  | nil => simp [wc_insert]
  | cons x xs ih =>
    obtain ⟨hx, hxs⟩ := List.pairwise_cons.mp h
    have hxa : wc_alpha_word x.word := hl x (by simp)
    have hxsa : ∀ u ∈ xs, wc_alpha_word u.word := fun u hu => hl u (by simp [hu])
    rw [wc_insert]
    by_cases hc : wc_compare_words e x ≤ 0
    · rw [if_pos hc]
      refine List.pairwise_cons.mpr ⟨?_, h⟩
      intro y hy
      rcases List.mem_cons.mp hy with hy | hy
      · subst hy; exact hc
      · exact wc_compare_trans he hxa hc (hx y hy)
    · rw [if_neg hc]
      have hxe : wc_compare_words x e ≤ 0 := (wc_compare_total e x).resolve_left hc
      refine List.pairwise_cons.mpr ⟨?_, ih hxsa hxs⟩
      intro y hy
      rcases wc_insert_mem hy with hy | hy
      · subst hy; exact hxe
      · exact hx y hy

lemma wc_qsort_sorted {l : List wc_Word} (hl : ∀ x ∈ l, wc_alpha_word x.word) :
    (wc_qsort l).Pairwise (fun a b => wc_compare_words a b ≤ 0) := by
  induction l with
  | nil => simp [wc_qsort]
  | cons x xs ih =>
    rw [wc_qsort]
    have hxsa : ∀ u ∈ xs, wc_alpha_word u.word := fun u hu => hl u (by simp [hu])
    refine wc_insert_sorted (hl x (by simp)) ?_ (ih hxsa)
    intro u hu
    exact hxsa u ((wc_qsort_perm xs).mem_iff.mp hu)

lemma wc_tableCount_nil (w : List Nat) : wc_tableCount [] w = 0 := rfl

lemma wc_tableCount_cons (e : wc_Word) (ws : List wc_Word) (w : List Nat) :
    wc_tableCount (e :: ws) w =
      (if e.word = w then e.freq else 0) + wc_tableCount ws w := by
  by_cases h : e.word = w <;>
    simp [wc_tableCount, List.filter_cons, h]

lemma wc_tableCount_append (ws1 ws2 : List wc_Word) (w : List Nat) :
    wc_tableCount (ws1 ++ ws2) w = wc_tableCount ws1 w + wc_tableCount ws2 w := by
  simp [wc_tableCount, List.filter_append]

lemma wc_tableCount_perm {ws1 ws2 : List wc_Word} (h : ws1.Perm ws2) (w : List Nat) :
    wc_tableCount ws1 w = wc_tableCount ws2 w := by
  unfold wc_tableCount
  exact List.Perm.sum_eq
    (List.Perm.map wc_Word.freq (h.filter (fun e => decide (e.word = w))))

lemma wc_find_last_none {ws : List wc_Word} {buf : List Nat} :
    wc_find_last ws buf = none ↔ buf ∉ ws.map wc_Word.word := by
  induction ws with
  | nil => simp [wc_find_last]
  | cons x rest ih =>
    rw [wc_find_last]
    cases hr : wc_find_last rest buf with
    | some j =>
      have hb : buf ∈ rest.map wc_Word.word := by
        by_contra hnb
        rw [ih.mpr hnb] at hr
        exact Option.noConfusion hr
      simp [hb]
    | none =>
      by_cases hx : x.word = buf
      · simp [hx]
      · rw [if_neg hx]
        simp only [List.map_cons, List.mem_cons, not_or]
        constructor
        · intro _; exact ⟨fun h => hx h.symm, ih.mp hr⟩
        · intro _; trivial

lemma wc_find_last_some {ws : List wc_Word} {buf : List Nat} {j : Nat}
    (h : wc_find_last ws buf = some j) :
    ∃ hj : j < ws.length, (ws.get ⟨j, hj⟩).word = buf := by
  induction ws generalizing j with
  | nil => simp [wc_find_last] at h
  | cons x rest ih =>
    rw [wc_find_last] at h
    cases hr : wc_find_last rest buf with
    | some k =>
      rw [hr] at h
      obtain rfl : k + 1 = j := by simpa using h
      obtain ⟨hk, hw⟩ := ih hr
      exact ⟨by simpa using Nat.succ_lt_succ hk, hw⟩
    | none =>
      rw [hr] at h
      by_cases hx : x.word = buf
      · rw [if_pos hx] at h
        obtain rfl : 0 = j := by simpa using h
        exact ⟨by simp, hx⟩
      · rw [if_neg hx] at h; simp at h

lemma wc_incr_count {ws : List wc_Word} {j : Nat} {buf : List Nat}
    (hj : j < ws.length) (hw : (ws.get ⟨j, hj⟩).word = buf) (w : List Nat) :
    wc_tableCount (wc_incr ws j) w =
      wc_tableCount ws w + (if w = buf then 1 else 0) := by
  induction ws generalizing j with
  | nil => simp at hj
  | cons x rest ih =>
    cases j with
    | zero =>
      simp only [List.get] at hw
      rw [wc_incr, wc_tableCount_cons, wc_tableCount_cons]
      dsimp only
      by_cases hx : x.word = w
      · rw [if_pos hx, if_pos hx, if_pos (hx ▸ hw)]; omega
      · rw [if_neg hx, if_neg hx, if_neg (fun h => hx (hw.trans h.symm))]; omega
    | succ k =>
      have hk : k < rest.length := by simpa using hj
      rw [wc_incr, wc_tableCount_cons, wc_tableCount_cons,
        ih hk (by simpa using hw) ]
      omega

lemma wc_incr_map_word (ws : List wc_Word) (j : Nat) :
    (wc_incr ws j).map wc_Word.word = ws.map wc_Word.word := by
  induction ws generalizing j with
  | nil => simp [wc_incr]
  | cons x rest ih =>
    cases j with
    | zero => simp [wc_incr]
    | succ k => simp [wc_incr, ih]

lemma wc_store_count (ws : List wc_Word) (buf w : List Nat) :
    wc_tableCount (wc_store_word ws buf) w =
      wc_tableCount ws w + (if w = buf then 1 else 0) := by
  rw [wc_store_word]
  cases hf : wc_find_last ws buf with
  | none =>
    rw [wc_tableCount_append, wc_tableCount_cons, wc_tableCount_nil]
    by_cases h : w = buf
    · rw [if_pos h, if_pos h.symm]
    · rw [if_neg h, if_neg (fun hb => h hb.symm)]
  | some j =>
    obtain ⟨hj, hw⟩ := wc_find_last_some hf
    exact wc_incr_count hj hw w

lemma wc_store_map_words {ws : List wc_Word} {buf : List Nat} :
    (wc_store_word ws buf).map wc_Word.word = ws.map wc_Word.word ∨
      (wc_store_word ws buf).map wc_Word.word = ws.map wc_Word.word ++ [buf] := by
  rw [wc_store_word]
  cases hf : wc_find_last ws buf with
  | none => right; simp
  | some j => left; exact wc_incr_map_word ws j

lemma wc_store_nodup {ws : List wc_Word} {buf : List Nat}
    (h : (ws.map wc_Word.word).Nodup) :
    ((wc_store_word ws buf).map wc_Word.word).Nodup := by
  rw [wc_store_word]
  cases hf : wc_find_last ws buf with
  | none =>
    have hb : buf ∉ ws.map wc_Word.word := wc_find_last_none.mp hf
    simp [List.nodup_append, h, hb]
  | some j => rw [wc_incr_map_word]; exact h

lemma wc_callback_count (buf : List Nat) (ws : List wc_Word) (w : List Nat) :
    wc_tableCount (wc_new_word_callback buf ws) w =
      wc_tableCount ws w + (if w = buf then 1 else 0) := by
  rw [wc_new_word_callback, wc_tableCount_perm (wc_qsort_perm _), wc_store_count]

lemma wc_callback_nodup {buf : List Nat} {ws : List wc_Word}
    (h : (ws.map wc_Word.word).Nodup) :
    ((wc_new_word_callback buf ws).map wc_Word.word).Nodup := by
  rw [wc_new_word_callback]
  exact (((wc_qsort_perm _).map wc_Word.word).nodup_iff).mpr (wc_store_nodup h)

lemma wc_run_from_count (l : List (List Nat)) :
    ∀ (ws : List wc_Word) (w : List Nat),
      wc_tableCount (wc_run_from ws l) w = wc_tableCount ws w + l.count w := by
  induction l with
  | nil => intro ws w; simp [wc_run_from]
  | cons v rest ih =>
    intro ws w
    rw [wc_run_from, ih, wc_callback_count]
    by_cases h : w = v
    · simp [List.count_cons, h]; omega
    · simp [List.count_cons, h]

lemma wc_run_count (l : List (List Nat)) (w : List Nat) :
    wc_tableCount (wc_run l) w = l.count w := by
  rw [wc_run, wc_run_from_count, wc_tableCount_nil, Nat.zero_add]

lemma wc_run_from_nodup (l : List (List Nat)) :
    ∀ ws : List wc_Word, (ws.map wc_Word.word).Nodup →
      ((wc_run_from ws l).map wc_Word.word).Nodup := by
  induction l with
  | nil => intro ws h; exact h
  | cons v rest ih => intro ws h; exact ih _ (wc_callback_nodup h)

lemma wc_run_nodup (l : List (List Nat)) : ((wc_run l).map wc_Word.word).Nodup :=
  wc_run_from_nodup l [] (by simp)

lemma strcmp_le_lex {a : List Nat} (ha : wc_alpha_word a) :
    ∀ {b : List Nat}, wc_alpha_word b → strcmp a b ≤ 0 → wc_lex_le a b := by
  induction a with
  | nil =>
    intro b _ _
    cases b with
    | nil => exact Or.inr rfl
    | cons y ys => exact Or.inl List.Lex.nil
  | cons x xs ih =>
    intro b hb hab
    cases b with
    | nil =>
      exfalso
      have hx : 97 ≤ x := (ha x (by simp)).1
      rw [strcmp] at hab; omega
    | cons y ys =>
      have hxs : wc_alpha_word xs := fun u hu => ha u (by simp [hu])
      have hys : wc_alpha_word ys := fun u hu => hb u (by simp [hu])
      by_cases hxy : x = y
      · subst hxy
        rw [strcmp, if_pos rfl] at hab
        rcases ih hxs hys hab with h | h
        · exact Or.inl (List.Lex.cons h)
        · exact Or.inr (by rw [h])
      · rw [strcmp, if_neg hxy] at hab
        exact Or.inl (List.Lex.rel (by omega))

lemma wc_compare_le_spec_ord {a b : wc_Word} (ha : wc_alpha_word a.word)
    (hb : wc_alpha_word b.word) (h : wc_compare_words a b ≤ 0) : wc_spec_ord a b := by
  unfold wc_compare_words at h
  by_cases hf : a.freq = b.freq
  · rw [if_pos hf] at h
    exact Or.inr ⟨hf, strcmp_le_lex ha hb h⟩
  · rw [if_neg hf] at h
    exact Or.inl (by omega)

lemma wc_words_ok_iff {ws : List wc_Word} :
    wc_words_ok ws ↔ ∀ e ∈ ws, wc_alpha_word e.word := by
  unfold wc_words_ok
  simp

lemma wc_store_words_ok {ws : List wc_Word} {buf : List Nat}
    (h : wc_words_ok ws) (hb : wc_alpha_word buf) :
    wc_words_ok (wc_store_word ws buf) := by
  intro w hw
  rcases @wc_store_map_words ws buf with hm | hm
  · exact h w (hm ▸ hw)
  · rw [hm] at hw
    rcases List.mem_append.mp hw with hw | hw
    · exact h w hw
    · simpa using (List.mem_singleton.mp hw) ▸ hb

lemma wc_callback_words_ok {ws : List wc_Word} {buf : List Nat}
    (h : wc_words_ok ws) (hb : wc_alpha_word buf) :
    wc_words_ok (wc_new_word_callback buf ws) := by
  intro w hw
  rw [wc_new_word_callback] at hw
  exact wc_store_words_ok h hb w (((wc_qsort_perm _).map wc_Word.word).mem_iff.mp hw)

lemma wc_run_from_words_ok (l : List (List Nat)) :
    ∀ ws : List wc_Word, wc_words_ok ws → (∀ w ∈ l, wc_alpha_word w) →
      wc_words_ok (wc_run_from ws l) := by
  induction l with
  | nil => intro ws h _; exact h
  | cons v rest ih =>
    intro ws h hl
    exact ih _ (wc_callback_words_ok h (hl v (by simp)))
      (fun w hw => hl w (by simp [hw]))

lemma wc_run_words_ok {l : List (List Nat)} (hl : ∀ w ∈ l, wc_alpha_word w) :
    wc_words_ok (wc_run l) :=
  wc_run_from_words_ok l [] (by intro w hw; simp at hw) hl

lemma wc_run_from_sorted (l : List (List Nat)) :
    ∀ ws : List wc_Word, wc_words_ok ws → (∀ w ∈ l, wc_alpha_word w) →
      ws.Pairwise (fun a b => wc_compare_words a b ≤ 0) →
      (wc_run_from ws l).Pairwise (fun a b => wc_compare_words a b ≤ 0) := by
  induction l with
  | nil => intro ws _ _ hs; exact hs
  | cons v rest ih =>
    intro ws h hl _
    refine ih _ (wc_callback_words_ok h (hl v (by simp)))
      (fun w hw => hl w (by simp [hw])) ?_
    exact wc_qsort_sorted
      (wc_words_ok_iff.mp (wc_store_words_ok h (hl v (by simp))))

lemma wc_run_sorted {l : List (List Nat)} (hl : ∀ w ∈ l, wc_alpha_word w) :
    (wc_run l).Pairwise (fun a b => wc_compare_words a b ≤ 0) :=
  wc_run_from_sorted l [] (by intro w hw; simp at hw) hl (by simp)

lemma wc_run_spec_ord {l : List (List Nat)} (hl : ∀ w ∈ l, wc_alpha_word w) :
    (wc_run l).Pairwise wc_spec_ord := by
  refine List.Pairwise.imp_of_mem ?_ (wc_run_sorted hl)
  intro a b ha hb h
  exact wc_compare_le_spec_ord (wc_words_ok_iff.mp (wc_run_words_ok hl) a ha)
    (wc_words_ok_iff.mp (wc_run_words_ok hl) b hb) h

lemma wc_read_loop_ff {s1 : List Nat} (h : 255 ∉ s1) :
    ∀ (s2 : List Nat) (state : Bool) (buf : List Nat),
      wc_read_loop (s1 ++ 255 :: s2) state buf = wc_read_loop s1 state buf := by
  induction s1 with
  | nil => intro s2 state buf; simp [wc_read_loop]
  | cons c rest ih =>
    intro s2 state buf
    have hc : c ≠ 255 := fun hc => h (by simp [hc])
    have hr : 255 ∉ rest := fun hr => h (by simp [hr])
    rw [List.cons_append, wc_read_loop, wc_read_loop, if_neg hc, if_neg hc]
    by_cases ha : wc_isalpha c
    · rw [if_pos ha, if_pos ha, ih hr]
    · rw [if_neg ha, if_neg ha, ih hr]

lemma splitLines_line {l : List Nat} (h : 10 ∉ l) (rest : List Nat) :
    splitLines (l ++ 10 :: rest) = l :: splitLines rest := by
  induction l with
  | nil => simp [splitLines]
  | cons b bs ih =>
    have hb : b ≠ 10 := fun hb => h (by simp [hb])
    have hbs : 10 ∉ bs := fun hbs => h (by simp [hbs])
    rw [List.cons_append, splitLines, if_neg hb, ih hbs]

lemma natDigits_range (n : Nat) : ∀ d ∈ natDigits n, 48 ≤ d ∧ d ≤ 57 := by
  induction n using Nat.strong_induction_on with
  | _ n ih =>
    rw [natDigits]
    by_cases h : n < 10
    · rw [if_pos h]
      intro d hd
      simp at hd
      omega
    · rw [if_neg h]
      intro d hd
      rcases List.mem_append.mp hd with hd | hd
      · exact ih (n / 10) (Nat.div_lt_self (by omega) (by omega)) d hd
      · simp at hd; omega

/-- Entry line of a report without its terminating newline:
the word, a space-dash-space, the decimal count, a trailing space. -/
def wc_entry_line (e : wc_Word) : List Nat :=
  e.word ++ str " - " ++ natDigits e.freq ++ [32]

lemma wc_entry_line_no_newline {e : wc_Word} (h : 10 ∉ e.word) :
    10 ∉ wc_entry_line e := by
  intro hm
  rw [wc_entry_line] at hm
  rcases List.mem_append.mp hm with hm | hm
  · rcases List.mem_append.mp hm with hm | hm
    · rcases List.mem_append.mp hm with hm | hm
      · exact h hm
      · simp [str] at hm
    · have := natDigits_range e.freq 10 hm
      omega
  · simp at hm

lemma wc_entry_bytes_eq (e : wc_Word) :
    wc_entry_bytes e = wc_entry_line e ++ [10] := by
  rw [wc_entry_bytes, wc_entry_line]
  have : str " \n" = [32] ++ [10] := by decide
  rw [this]
  simp [List.append_assoc]

lemma splitLines_entries (ws : List wc_Word) (h : ∀ e ∈ ws, 10 ∉ e.word)
    (tail : List Nat) :
    splitLines ((ws.map wc_entry_bytes).flatten ++ tail) =
      ws.map wc_entry_line ++ splitLines tail := by
  induction ws with
  | nil => simp
  | cons e rest ih =>
    have he : 10 ∉ e.word := h e (by simp)
    have hr : ∀ x ∈ rest, 10 ∉ x.word := fun x hx => h x (by simp [hx])
    rw [List.map_cons, List.flatten_cons, wc_entry_bytes_eq, List.append_assoc,
      List.append_assoc]
    rw [show ([10] : List Nat) ++ ((rest.map wc_entry_bytes).flatten ++ tail) =
      10 :: ((rest.map wc_entry_bytes).flatten ++ tail) from rfl]
    rw [splitLines_line (wc_entry_line_no_newline he), ih hr]
    simp

lemma splitLines_newline_cons (t : List Nat) : splitLines (10 :: t) = [] :: splitLines t := by
  rw [splitLines, if_pos rfl]

lemma wc_print_lines_eq (ws : List wc_Word) (h : ∀ e ∈ ws, 10 ∉ e.word) :
    wc_print_lines ws =
      [] :: str "Current word frequency count: " ::
        (ws.map wc_entry_line ++ [str "----------------------------- "]) := by
  rw [wc_print_lines, wc_print_output]
  rw [show wc_header_bytes =
    10 :: (str "Current word frequency count: " ++ [10]) from by decide]
  rw [show wc_sep_bytes = str "----------------------------- " ++ 10 :: [] from by decide]
  rw [show (10 :: (str "Current word frequency count: " ++ [10])) ++
        (ws.map wc_entry_bytes).flatten ++
        (str "----------------------------- " ++ 10 :: []) =
      10 :: (str "Current word frequency count: " ++
        10 :: ((ws.map wc_entry_bytes).flatten ++
          (str "----------------------------- " ++ 10 :: []))) from by simp]
  rw [splitLines_newline_cons,
    splitLines_line (show (10 : Nat) ∉ str "Current word frequency count: " from by decide),
    splitLines_entries ws h, splitLines_line (by decide), splitLines]

lemma wc_count_flatten (L : List (List (List Nat))) (w : List Nat) :
    L.flatten.count w = (L.map (List.count w)).sum := by
  induction L with
  | nil => simp
  | cons s L ih => simp [List.count_append, ih]

lemma wc_perm_count {l1 l2 : List (List Nat)} (h : l1.Perm l2) (a : List Nat) :
    l1.count a = l2.count a :=
  h.countP_eq (· == a)

/-- C1: starting from the empty table, record-occurrence calls
(`wc_new_word_callback`, which under the lock runs `wc_store_word` and
re-sorts) keep the invariant that the word column of the table is
duplicate-free and that the table count of every word equals the number of
times it has been recorded so far (this holds after every call since the
sequence `l` is arbitrary); recording a further word `w` takes its count from
`n` to `n + 1`, so an absent word enters with count 1 and a present word is
incremented.  The hypothesis restricts the statement to call sequences the
fixed-size C arrays can represent; beyond 128 distinct words or 127-byte
words the C code overflows them (treated separately). -/
theorem C1_record_occurrence_invariant (l : List (List Nat))
    (_hcap : wc_within_capacity l) :
    ((wc_run l).map wc_Word.word).Nodup ∧
      (∀ w, wc_tableCount (wc_run l) w = l.count w) ∧
      (∀ w, wc_tableCount (wc_run (l ++ [w])) w = wc_tableCount (wc_run l) w + 1) := by
  refine ⟨wc_run_nodup l, fun w => wc_run_count l w, fun w => ?_⟩
  rw [wc_run_count, wc_run_count, List.count_append]
  simp

theorem C1_record_occurrence_invariant_witness :
    wc_within_capacity [str "a", str "b", str "a"] ∧
      wc_tableCount (wc_run [str "a", str "b", str "a"]) (str "a") = 2 := by
  refine ⟨by decide, ?_⟩
  rw [(C1_record_occurrence_invariant [str "a", str "b", str "a"] (by decide)).2.1 (str "a")]
  decide

/-- C2: the single mutex admits the concurrent record-occurrence calls of all
reader tasks one at a time, so an execution is some sequencing `l` of the
calls that interleaves the per-task word sequences `sources`; every
interleaving is in particular a permutation of their concatenation, and the
theorem covers all permutations.  For each word the final table count equals
exactly the total number of occurrences recorded for it across all sources:
no update is lost.  Reads are likewise serialized by the same lock, so the
model never exposes a mid-update state. -/
theorem C2_no_lost_updates (sources : List (List (List Nat)))
    (l : List (List Nat)) (hl : l.Perm sources.flatten)
    (_hcap : wc_within_capacity l) :
    ∀ w, wc_tableCount (wc_run l) w = (sources.map (fun s => s.count w)).sum := by
  intro w
  rw [wc_run_count, wc_perm_count hl, wc_count_flatten]

theorem C2_no_lost_updates_witness :
    ([str "b", str "a", str "a"].Perm
        ([[str "a", str "b"], [str "a"]] : List (List (List Nat))).flatten) ∧
      wc_tableCount (wc_run [str "b", str "a", str "a"]) (str "a") = 2 := by
  refine ⟨by decide, ?_⟩
  rw [C2_no_lost_updates [[str "a", str "b"], [str "a"]]
    [str "b", str "a", str "a"] (by decide) (by decide) (str "a")]
  decide

/-- C3 (code bug): on the stream "abc", which ends inside a word, the read
loop of `wc_read_fd` exits at end-of-stream without emitting the pending
buffer — there is no flush after the while loop — so no word at all is
produced, where the claim requires the word "abc". -/
theorem C3_trailing_word_dropped : wc_read_words (str "abc") = [] := by decide

/-- C4: every reachable table (the words recorded are lower-case alphabetic,
the only form the tokenizer emits) is, after the qsort ending each record
call, ordered by descending count with ties in ascending lexicographic order
of the word; and the table holding a:3, b:3, c:5 reads exactly
(c,5), (a,3), (b,3). -/
theorem C4_snapshot_sorted :
    (∀ l : List (List Nat), (∀ w ∈ l, wc_alpha_word w) →
        (wc_run l).Pairwise wc_spec_ord) ∧
      wc_run [str "a", str "a", str "a", str "b", str "b", str "b",
          str "c", str "c", str "c", str "c", str "c"] =
        [⟨str "c", 5⟩, ⟨str "a", 3⟩, ⟨str "b", 3⟩] :=
  ⟨fun l hl => wc_run_spec_ord hl, by decide⟩

theorem C4_snapshot_sorted_witness :
    (∀ w ∈ [str "b", str "a", str "b"], wc_alpha_word w) ∧
      (wc_run [str "b", str "a", str "b"]).Pairwise wc_spec_ord :=
  ⟨by decide, C4_snapshot_sorted.1 [str "b", str "a", str "b"] (by decide)⟩

/-- C5 (code bug): with the two sources feeding exactly "the cat sat" and
"the dog sat" (no trailing delimiter), each reader drops its final word
"sat" at end-of-stream, so the final table — shown here for one serialization
of the calls; the counts are order-independent — is
(the,2), (cat,1), (dog,1), not the claimed (sat,2), (the,2), (cat,1), (dog,1). -/
theorem C5_end_to_end_report :
    wc_run (wc_read_words (str "the cat sat") ++ wc_read_words (str "the dog sat")) =
      [⟨str "the", 2⟩, ⟨str "cat", 1⟩, ⟨str "dog", 1⟩] := by decide

set_option maxRecDepth 10000 in
/-- C6 (code bug): `wc_store_word` inserts a new word with no check of
`ctxt->len` against the 128-entry array `wc_Word words[128]`: 129 distinct
recorded words produce a table of 129 entries, the 129th insertion having
written `ctxt->words[128]`, one past the end of the array, instead of
dropping the occurrence or growing the structure. -/
theorem C6_capacity_overflow :
    (wc_run ((List.range 129).map (fun i => [97 + i / 26, 97 + i % 26]))).length
      = 129 := by decide

/-- C7 (code bug): the read loop of `wc_read_fd` never bounds the buffer
index `i`: on a run of 128 alphabetic bytes followed by a delimiter it
writes the terminating NUL at buf index 128, one past the end of
`char buf[128]` (valid indices 0..127); longer runs also write data bytes out
of bounds.  The code neither truncates nor rejects long runs. -/
theorem C7_buffer_overflow :
    128 ∈ wc_write_indices (List.replicate 128 97 ++ [32]) false 0 := by decide

/-- C8 (code bug): `main` never compares `argc` with the size of its fixed
arrays `pthread_t t[10]` and `wc_Thread_Context tctxt[10]`: invoked with 10
named sources (argc = 11) it uses thread slot 10, which is out of bounds, and
no configuration-error path exists anywhere in the code. -/
theorem C8_no_source_count_check :
    10 ∈ wc_main_slots 11 ∧ ¬ (10 < 10) := by decide

/-- C9 (counterexample): the block `wc_print_words` emits for the one-entry
table (word "ab", count 1) does not have the claimed three-line shape of a
header line, the entry line "ab - 1", and a separator line: the block has
four lines (it opens with a blank line), and its entry line carries a
trailing space. -/
theorem C9_block_shape_counterexample :
    ¬ ∃ hdr sep : List Nat,
        wc_print_lines [⟨str "ab", 1⟩] =
          [hdr, str "ab" ++ str " - " ++ natDigits 1, sep] := by
  intro h
  obtain ⟨hdr, sep, he⟩ := h
  have hlen := congrArg List.length he
  rw [wc_print_lines_eq [⟨str "ab", 1⟩] (by decide)] at hlen
  simp at hlen

/-- C9 (amended): every report block written by `wc_print_words` consists of
a leading blank line, the header line, exactly one line per table entry in
table order of the exact form word ++ " - " ++ decimal count ++ " " (note the
trailing space), and a trailing separator line of 29 dashes and a space.
The hypothesis — no newline byte inside a stored word — holds for every word
the tokenizer can produce. -/
theorem C9_block_shape (ws : List wc_Word) (h : ∀ e ∈ ws, 10 ∉ e.word) :
    wc_print_lines ws =
      [] :: str "Current word frequency count: " ::
        (ws.map wc_entry_line ++ [str "----------------------------- "]) :=
  wc_print_lines_eq ws h

theorem C9_block_shape_witness :
    (∀ e ∈ [(⟨str "ab", 1⟩ : wc_Word)], 10 ∉ e.word) ∧
      wc_print_lines [⟨str "ab", 1⟩] =
        [] :: str "Current word frequency count: " ::
          ([(⟨str "ab", 1⟩ : wc_Word)].map wc_entry_line ++
            [str "----------------------------- "]) :=
  ⟨by decide, C9_block_shape [⟨str "ab", 1⟩] (by decide)⟩

/-- C10: `wc_read_fd` stores the `int` result of `getc` into a plain `char`,
so byte 255 (0xFF) becomes the value -1 and the `!= EOF` test ends the read
loop exactly as real end-of-stream does: on any stream whose part before the
first 0xFF byte is `s1`, the words produced are those of `s1` alone — nothing
at or after the 0xFF byte is ever tokenized or counted (and, as at
end-of-stream, a pending partial word is not flushed). -/
theorem C10_ff_byte_is_eof (s1 s2 : List Nat) (h : 255 ∉ s1) :
    wc_read_words (s1 ++ 255 :: s2) = wc_read_words s1 := by
  rw [wc_read_words, wc_read_words, wc_read_loop_ff h]

theorem C10_ff_byte_is_eof_witness :
    (255 ∉ str "ab ") ∧
      wc_read_words (str "ab " ++ 255 :: str "cd ") = wc_read_words (str "ab ") :=
  ⟨by decide, C10_ff_byte_is_eof (str "ab ") (str "cd ") (by decide)⟩

end WordCount
